import Mathlib

/-!
Verification of the trigram-based code-search core: the required-trigram
extractor, the trigram inverted index with its search driver, the
filesystem-watcher index mutations, the gitignore-style ignore predicate,
and the changeset applicator.

Strings are modelled as `List Char`; Python sets are modelled as lists
handled through membership-preserving operations (`setInsert`, `setUnion`,
`setInter`); Python dicts are modelled as association lists (`dictGet`,
`dictSet`) or, for `defaultdict(set)`, as total functions with default `[]`.
-/

/-- Finite-set style insert on lists: the model of Python `set.add`. -/
def setInsert {α : Type} [DecidableEq α] (a : α) (l : List α) : List α :=
  if a ∈ l then l else a :: l

/-- Finite-set style union on lists: the model of Python `set |= set`. -/
def setUnion {α : Type} [DecidableEq α] (l₁ l₂ : List α) : List α :=
  l₁.foldr setInsert l₂

/-- Finite-set style intersection on lists: the model of Python `set &= set`. -/
def setInter {α : Type} [DecidableEq α] (l₁ l₂ : List α) : List α :=
  l₁.filter (fun a => a ∈ l₂)

theorem mem_setInsert {α : Type} [DecidableEq α] {a b : α} {l : List α} :
    a ∈ setInsert b l ↔ a = b ∨ a ∈ l := by
  unfold setInsert
  split
  · next hbl =>
    constructor
    · exact fun h => Or.inr h
    · rintro (rfl | h)
      · exact hbl
      · exact h
  · exact List.mem_cons

theorem mem_setUnion {α : Type} [DecidableEq α] {a : α} {l₁ l₂ : List α} :
    a ∈ setUnion l₁ l₂ ↔ a ∈ l₁ ∨ a ∈ l₂ := by
  induction l₁ with
  | nil => simp [setUnion]
  | cons b t ih =>
    simp only [setUnion, List.foldr_cons, List.mem_cons]
    rw [show t.foldr setInsert l₂ = setUnion t l₂ from rfl] at *
    rw [mem_setInsert, ih]
    tauto

theorem mem_setInter {α : Type} [DecidableEq α] {a : α} {l₁ l₂ : List α} :
    a ∈ setInter l₁ l₂ ↔ a ∈ l₁ ∧ a ∈ l₂ := by
  simp [setInter]

/-- Association-list lookup: the model of Python dict access `d.get(k)`. -/
def dictGet {α β : Type} [DecidableEq α] : List (α × β) → α → Option β
  | [], _ => none
  | kv :: rest, k => if kv.1 = k then some kv.2 else dictGet rest k

/-- Association-list update: the model of Python dict assignment `d[k] = v`
(replace in place when the key exists, append otherwise). -/
def dictSet {α β : Type} [DecidableEq α] (d : List (α × β)) (k : α) (v : β) :
    List (α × β) :=
  if d.any (fun kv => kv.1 = k) then
    d.map (fun kv => if kv.1 = k then (k, v) else kv)
  else d ++ [(k, v)]

theorem dictGet_eq_none_iff {α β : Type} [DecidableEq α] {d : List (α × β)} {k : α} :
    dictGet d k = none ↔ ∀ kv ∈ d, kv.1 ≠ k := by
  induction d with
  | nil => simp [dictGet]
  | cons kv rest ih =>
    simp only [dictGet, List.mem_cons]
    split
    · simp_all
    · next h => simp_all

theorem dictGet_append {α β : Type} [DecidableEq α] (d e : List (α × β)) (k : α) :
    dictGet (d ++ e) k =
      match dictGet d k with
      | some v => some v
      | none => dictGet e k := by
  induction d with
  | nil => simp [dictGet]
  | cons kv rest ih =>
    simp only [List.cons_append, dictGet]
    split <;> simp [ih]

theorem dictGet_dictSet_self {α β : Type} [DecidableEq α]
    (d : List (α × β)) (k : α) (v : β) : dictGet (dictSet d k v) k = some v := by
  unfold dictSet
  split
  · next hany =>
    induction d with
    | nil => simp at hany
    | cons kv rest ih =>
      simp only [List.map_cons, List.any_cons] at *
      by_cases hk : kv.1 = k
      · simp [hk, dictGet]
      · simp only [hk, if_false, dictGet, Bool.or_eq_true, decide_eq_true_eq] at *
        rcases hany with h | h
        · exact absurd h hk
        · exact ih h
  · next hany =>
    rw [dictGet_append]
    have : dictGet d k = none := by
      rw [dictGet_eq_none_iff]
      intro kv hkv
      simp only [List.any_eq_true, decide_eq_true_eq] at hany
      exact fun h => hany ⟨kv, hkv, h⟩
    simp [this, dictGet]

theorem dictGet_map_replace {α β : Type} [DecidableEq α]
    (d : List (α × β)) (k k' : α) (v : β) (hne : k' ≠ k) :
    dictGet (d.map (fun kv => if kv.1 = k then (k, v) else kv)) k' = dictGet d k' := by
  induction d with
  | nil => simp [dictGet]
  | cons kv rest ih =>
    simp only [List.map_cons, dictGet]
    by_cases hk : kv.1 = k
    · have hkk : ¬ (k = k') := fun h => hne h.symm
      have hkv : ¬ (kv.1 = k') := by rw [hk]; exact hkk
      simp [hk, hkk, hkv, ih]
    · simp only [hk, if_false, dictGet]
      split <;> simp [ih]

theorem dictGet_dictSet_ne {α β : Type} [DecidableEq α]
    (d : List (α × β)) (k k' : α) (v : β) (hne : k' ≠ k) :
    dictGet (dictSet d k v) k' = dictGet d k' := by
  unfold dictSet
  split
  · exact dictGet_map_replace d k k' v hne
  · rw [dictGet_append]
    cases h : dictGet d k' with
    | some w => rfl
    | none => simp [dictGet, show ¬ (k = k') from fun h => hne h.symm]

/-!
## Regex AST

The model of the parsed regex (`sre_parse.parse`): the node kinds the
extractor `_mandatory_trigrams` distinguishes. `literal` is a LITERAL token;
`subpattern` a parenthesised group (the code keeps only `val[3]`, the body);
`branch` an alternation with its list of branches (`val[1]`); `maxRepeat`
a quantified term with its minimum and maximum counts; `other` any other
operator (ANY, IN, AT, CATEGORY, ...), which the extractor skips and which
the match semantics lets match an arbitrary string, the most conservative
reading.
-/
inductive Node : Type where
  | literal : Char → Node
  | subpattern : List Node → Node
  | branch : List (List Node) → Node
  | maxRepeat : Nat → Nat → List Node → Node
  | other : Node

/-- A literal run as an AST fragment: each character becomes a LITERAL node. -/
def lits (s : List Char) : List Node := s.map Node.literal

/-- The length-3 window starting at a literal node: nonempty exactly when the
next two nodes are also literals. A maximal literal run of the source
contributes precisely the windows of its positions, so this per-position view
computes the same set as the source's run gathering. -/
def headWindow (a : Char) : List Node → List (List Char)
  | Node.literal b :: Node.literal c :: _ => [[a, b, c]]
  | _ => []

/-- Intersection of a list of trigram sets: the source's
`common = branch_sets[0]; common &= s for the rest` (empty contribution when
there is no branch). -/
def interSets : List (List (List Char)) → List (List Char)
  | [] => []
  | s :: ss => ss.foldl setInter s

mutual
/-- The extractor `_mandatory_trigrams` of `code_search.py` over a parsed
subpattern: with `required = false` the guarantees vanish; otherwise literal
runs contribute their length-3 windows, groups recurse with `required = true`,
alternations contribute the intersection of their branches' sets, quantified
terms recurse with `required = (min > 0)`, and every other operator
contributes nothing. -/
def mandatorySeq : Bool → List Node → List (List Char)
  | false, _ => []
  | true, [] => []
  | true, Node.literal a :: rest =>
      setUnion (headWindow a rest) (mandatorySeq true rest)
  | true, Node.subpattern body :: rest =>
      setUnion (mandatorySeq true body) (mandatorySeq true rest)
  | true, Node.branch bs :: rest =>
      setUnion (interSets (branchTrigrams bs)) (mandatorySeq true rest)
  | true, Node.maxRepeat m _ body :: rest =>
      setUnion (mandatorySeq (decide (0 < m)) body) (mandatorySeq true rest)
  | true, Node.other :: rest => mandatorySeq true rest

/-- The per-branch recursion of the BRANCH case: each branch is analysed with
`required = true`. -/
def branchTrigrams : List (List Node) → List (List (List Char))
  | [] => []
  | b :: bs => mandatorySeq true b :: branchTrigrams bs
end

/-- The function `required_trigrams` of `code_search.py` applied to an
already-parsed pattern. -/
def requiredTrigrams (p : List Node) : List (List Char) :=
  mandatorySeq true p

/-!
## Match semantics

`MatchSeq p s` says the string `s` is a full match of the node sequence `p`.
Literal nodes match their character; a group matches what its body matches;
an alternation matches what one of its branches matches; `X{m,mx}` matches a
concatenation of between `m` and `mx` matches of the body; `other` nodes may
match any string whatsoever, which makes every soundness statement below as
strong as possible.
-/
inductive MatchSeq : List Node → List Char → Prop where
  | nil : MatchSeq [] []
  | lit (c : Char) {ns : List Node} {s : List Char} :
      MatchSeq ns s → MatchSeq (Node.literal c :: ns) (c :: s)
  | sub {body ns : List Node} {s₁ s₂ : List Char} :
      MatchSeq body s₁ → MatchSeq ns s₂ →
      MatchSeq (Node.subpattern body :: ns) (s₁ ++ s₂)
  | branch {b : List Node} {bs : List (List Node)} {ns : List Node}
      {s₁ s₂ : List Char} :
      b ∈ bs → MatchSeq b s₁ → MatchSeq ns s₂ →
      MatchSeq (Node.branch bs :: ns) (s₁ ++ s₂)
  | rep {m mx : Nat} {body : List Node} {parts : List (List Char)}
      {ns : List Node} {s₂ : List Char} :
      m ≤ parts.length → parts.length ≤ mx →
      (∀ part ∈ parts, MatchSeq body part) → MatchSeq ns s₂ →
      MatchSeq (Node.maxRepeat m mx body :: ns) (parts.flatten ++ s₂)
  | other {s₁ : List Char} {ns : List Node} {s₂ : List Char} :
      MatchSeq ns s₂ → MatchSeq (Node.other :: ns) (s₁ ++ s₂)

/-- The sense of `re.search`: some substring of `s` is a full match of `p`. -/
def ContainsMatch (p : List Node) (s : List Char) : Prop :=
  ∃ s₁ s₂ s₃ : List Char, s = s₁ ++ s₂ ++ s₃ ∧ MatchSeq p s₂

/-! ## Equations and membership lemmas for the extractor -/

theorem mandatorySeq_false (l : List Node) : mandatorySeq false l = [] := by
  simp [mandatorySeq]

theorem mandatorySeq_nil : mandatorySeq true [] = [] := by
  simp [mandatorySeq]

theorem mandatorySeq_lit (a : Char) (rest : List Node) :
    mandatorySeq true (Node.literal a :: rest) =
      setUnion (headWindow a rest) (mandatorySeq true rest) := by
  simp [mandatorySeq]

theorem mandatorySeq_sub (body rest : List Node) :
    mandatorySeq true (Node.subpattern body :: rest) =
      setUnion (mandatorySeq true body) (mandatorySeq true rest) := by
  simp [mandatorySeq]

theorem mandatorySeq_branch (bs : List (List Node)) (rest : List Node) :
    mandatorySeq true (Node.branch bs :: rest) =
      setUnion (interSets (branchTrigrams bs)) (mandatorySeq true rest) := by
  simp [mandatorySeq]

theorem mandatorySeq_rep (m mx : Nat) (body rest : List Node) :
    mandatorySeq true (Node.maxRepeat m mx body :: rest) =
      setUnion (mandatorySeq (decide (0 < m)) body) (mandatorySeq true rest) := by
  simp [mandatorySeq]

theorem mandatorySeq_other (rest : List Node) :
    mandatorySeq true (Node.other :: rest) = mandatorySeq true rest := by
  simp [mandatorySeq]

theorem mem_headWindow {a : Char} {t : List Char} {ns : List Node}
    (h : t ∈ headWindow a ns) :
    ∃ b c rest, ns = Node.literal b :: Node.literal c :: rest ∧ t = [a, b, c] := by
  unfold headWindow at h
  split at h
  · next b c rest =>
    simp only [List.mem_singleton] at h
    exact ⟨b, c, rest, rfl, h⟩
  · simp at h

theorem mem_foldl_setInter {t : List Char} {ss : List (List (List Char))}
    {acc : List (List Char)} :
    t ∈ ss.foldl setInter acc ↔ t ∈ acc ∧ ∀ x ∈ ss, t ∈ x := by
  induction ss generalizing acc with
  | nil => simp
  | cons s ss ih =>
    simp only [List.foldl_cons, ih, mem_setInter, List.mem_cons]
    constructor
    · rintro ⟨⟨h₁, h₂⟩, h₃⟩
      exact ⟨h₁, by rintro x (rfl | hx); exact h₂; exact h₃ x hx⟩
    · rintro ⟨h₁, h₂⟩
      exact ⟨⟨h₁, h₂ s (Or.inl rfl)⟩, fun x hx => h₂ x (Or.inr hx)⟩

theorem mem_interSets {t : List Char} {ss : List (List (List Char))} :
    t ∈ interSets ss ↔ ss ≠ [] ∧ ∀ x ∈ ss, t ∈ x := by
  cases ss with
  | nil => simp [interSets]
  | cons s ss =>
    simp only [interSets, mem_foldl_setInter, List.mem_cons]
    constructor
    · rintro ⟨h₁, h₂⟩
      refine ⟨by simp, ?_⟩
      rintro x (rfl | hx); exact h₁; exact h₂ x hx
    · rintro ⟨-, h₂⟩
      exact ⟨h₂ s (Or.inl rfl), fun x hx => h₂ x (Or.inr hx)⟩

theorem mem_branchTrigrams {x : List (List Char)} {bs : List (List Node)} :
    x ∈ branchTrigrams bs ↔ ∃ b ∈ bs, x = mandatorySeq true b := by
  induction bs with
  | nil => simp [branchTrigrams]
  | cons b bs ih =>
    simp only [branchTrigrams, List.mem_cons, ih]
    constructor
    · rintro (rfl | ⟨b₁, hb₁, rfl⟩)
      · exact ⟨b, Or.inl rfl, rfl⟩
      · exact ⟨b₁, Or.inr hb₁, rfl⟩
    · rintro ⟨b₁, (rfl | hb₁), rfl⟩
      · exact Or.inl rfl
      · exact Or.inr ⟨b₁, hb₁, rfl⟩

/-! ## Infix helpers -/

theorem infix_of_left {t s₁ : List Char} (s₂ : List Char) (h : t <:+: s₁) :
    t <:+: s₁ ++ s₂ := by
  obtain ⟨u, v, rfl⟩ := h
  exact ⟨u, v ++ s₂, by simp⟩

theorem infix_of_right (s₁ : List Char) {t s₂ : List Char} (h : t <:+: s₂) :
    t <:+: s₁ ++ s₂ := by
  obtain ⟨u, v, rfl⟩ := h
  exact ⟨s₁ ++ u, v, by simp⟩

theorem infix_cons_of {t s : List Char} (c : Char) (h : t <:+: s) :
    t <:+: c :: s := by
  obtain ⟨u, v, rfl⟩ := h
  exact ⟨c :: u, v, by simp⟩

/-- Every pattern consisting only of literal nodes matches exactly its own
character string. -/
theorem matchSeq_lits (cs : List Char) : MatchSeq (lits cs) cs := by
  induction cs with
  | nil => exact MatchSeq.nil
  | cons c cs ih => exact MatchSeq.lit c ih

/-- Core soundness of the extractor: every trigram it reports for a required
subpattern is an infix of every full match of that subpattern. -/
theorem mandatory_sound {p : List Node} {s : List Char} (h : MatchSeq p s) :
    ∀ t ∈ mandatorySeq true p, t <:+: s := by
  induction h with
  | nil => intro t ht; rw [mandatorySeq_nil] at ht; simp at ht
  | lit c hrest ih =>
    intro t ht
    rw [mandatorySeq_lit] at ht
    rcases mem_setUnion.mp ht with hw | hr
    · obtain ⟨b, d, rest₂, hns, rfl⟩ := mem_headWindow hw
      subst hns
      cases hrest with
      | lit _ h₂ =>
        cases h₂ with
        | lit _ h₃ => exact ⟨[], _, rfl⟩
    · exact infix_cons_of c (ih t hr)
  | sub h₁ h₂ ih₁ ih₂ =>
    intro t ht
    rw [mandatorySeq_sub] at ht
    rcases mem_setUnion.mp ht with hb | hr
    · exact infix_of_left _ (ih₁ t hb)
    · exact infix_of_right _ (ih₂ t hr)
  | branch hmem h₁ h₂ ih₁ ih₂ =>
    intro t ht
    rw [mandatorySeq_branch] at ht
    rcases mem_setUnion.mp ht with hi | hr
    · have hall := (mem_interSets.mp hi).2
      have hb : t ∈ mandatorySeq true _ :=
        hall _ (mem_branchTrigrams.mpr ⟨_, hmem, rfl⟩)
      exact infix_of_left _ (ih₁ t hb)
    · exact infix_of_right _ (ih₂ t hr)
  | rep hm hmx hparts hns ihparts ihns =>
    intro t ht
    rw [mandatorySeq_rep] at ht
    rcases mem_setUnion.mp ht with hb | hr
    · next m mx body parts ns s₂ =>
      match m, hm with
      | 0, _ =>
        rw [show (decide (0 < 0) : Bool) = false from rfl, mandatorySeq_false] at hb
        simp at hb
      | Nat.succ k, hm =>
        rw [show decide (0 < Nat.succ k) = true by simp] at hb
        match parts, hm with
        | p₀ :: pr, _ =>
          have hinf : t <:+: p₀ := ihparts p₀ (List.mem_cons_self _ _) t hb
          rw [List.flatten_cons, List.append_assoc]
          exact infix_of_left _ hinf
    · exact infix_of_right _ (ihns t hr)
  | other hns ihns =>
    intro t ht
    rw [mandatorySeq_other] at ht
    exact infix_of_right _ (ihns t ht)

theorem sizeOf_list_pos (l : List Node) : 0 < sizeOf l := by
  cases l <;> simp +arith

/-- Every trigram the extractor reports has length 3 (bounded recursion on the
size of the subpattern). -/
theorem mandatory_length_aux :
    ∀ (n : Nat) (b : Bool) (l : List Node), sizeOf l ≤ n →
      ∀ t ∈ mandatorySeq b l, t.length = 3 := by
  intro n
  induction n with
  | zero =>
    intro b l hl
    exact absurd hl (by have := sizeOf_list_pos l; omega)
  | succ n ih =>
    intro b l hl t ht
    cases b with
    | false => rw [mandatorySeq_false] at ht; simp at ht
    | true =>
      cases l with
      | nil => rw [mandatorySeq_nil] at ht; simp at ht
      | cons nd rest =>
        have hrest : sizeOf rest ≤ n := by
          simp only [List.cons.sizeOf_spec] at hl
          have := Node.other.sizeOf_spec
          cases nd <;> simp +arith at hl <;> omega
        cases nd with
        | literal a =>
          rw [mandatorySeq_lit] at ht
          rcases mem_setUnion.mp ht with hw | hr
          · obtain ⟨b₂, c₂, r₂, _, rfl⟩ := mem_headWindow hw
            rfl
          · exact ih true rest hrest t hr
        | subpattern body =>
          rw [mandatorySeq_sub] at ht
          rcases mem_setUnion.mp ht with hb | hr
          · refine ih true body ?_ t hb
            simp only [List.cons.sizeOf_spec, Node.subpattern.sizeOf_spec] at hl
            omega
          · exact ih true rest hrest t hr
        | branch bs =>
          rw [mandatorySeq_branch] at ht
          rcases mem_setUnion.mp ht with hi | hr
          · obtain ⟨hne, hall⟩ := mem_interSets.mp hi
            cases hbt : branchTrigrams bs with
            | nil => exact absurd hbt hne
            | cons x xs =>
              have hx : x ∈ branchTrigrams bs := by rw [hbt]; exact List.mem_cons_self _ _
              obtain ⟨b₀, hb₀, rfl⟩ := mem_branchTrigrams.mp hx
              have htb : t ∈ mandatorySeq true b₀ := hall _ hx
              refine ih true b₀ ?_ t htb
              have hlt : sizeOf b₀ < sizeOf bs := List.sizeOf_lt_of_mem hb₀
              simp only [List.cons.sizeOf_spec, Node.branch.sizeOf_spec] at hl
              omega
          · exact ih true rest hrest t hr
        | maxRepeat m mx body =>
          rw [mandatorySeq_rep] at ht
          rcases mem_setUnion.mp ht with hb | hr
          · refine ih (decide (0 < m)) body ?_ t hb
            simp only [List.cons.sizeOf_spec, Node.maxRepeat.sizeOf_spec] at hl
            omega
          · exact ih true rest hrest t hr
        | other =>
          rw [mandatorySeq_other] at ht
          exact ih true rest hrest t ht

theorem mandatory_length {b : Bool} {l : List Node} {t : List Char}
    (ht : t ∈ mandatorySeq b l) : t.length = 3 :=
  mandatory_length_aux (sizeOf l) b l (Nat.le_refl _) t ht

/-- C1: for every regex pattern accepted by the parser (modelled as a parsed
AST) and every string that matches it, every trigram in
`required_trigrams` of that pattern is a substring of the string. -/
theorem trigram_soundness (p : List Node) (s : List Char) (h : MatchSeq p s) :
    ∀ t ∈ requiredTrigrams p, t <:+: s :=
  mandatory_sound h

/-- Witness for C1 at the pattern `hello` and the matching string `hello`. -/
theorem trigram_soundness_witness :
    ['h', 'e', 'l'] <:+: ['h', 'e', 'l', 'l', 'o'] := by
  have hmem : ['h', 'e', 'l'] ∈ requiredTrigrams (lits ['h', 'e', 'l', 'l', 'o']) := by
    simp only [requiredTrigrams, lits, List.map_cons, List.map_nil]
    simp [mandatorySeq, headWindow]
    decide
  exact trigram_soundness _ _ (matchSeq_lits ['h', 'e', 'l', 'l', 'o']) _ hmem

/-!
## The trigram inverted index

The state of `TrigramRegexSearcher`: the document store `docs` (a dict from
id to content) and the posting map `inv` (a `defaultdict(set)`, modelled as a
total function whose default is the empty set).
-/

/-- The overlapping length-3 windows of a text, each distinct window once:
the trigrams the indexing loop of `add_document` visits (its `seen` set makes
each distinct window count once). -/
def textTrigrams : List Char → List (List Char)
  | a :: b :: c :: rest => setInsert [a, b, c] (textTrigrams (b :: c :: rest))
  | _ => []

theorem mem_textTrigrams {t s : List Char} :
    t ∈ textTrigrams s ↔ t.length = 3 ∧ t <:+: s := by
  induction s with
  | nil =>
    simp only [textTrigrams, List.not_mem_nil, false_iff, not_and]
    intro h3 hinf
    rw [List.infix_nil] at hinf
    simp [hinf] at h3
  | cons a s ih =>
    match s, ih with
    | [], _ =>
      simp only [textTrigrams, List.not_mem_nil, false_iff, not_and]
      intro h3 hinf
      have hle := List.IsInfix.length_le hinf
      rw [h3] at hle
      simp at hle
    | [b], _ =>
      simp only [textTrigrams, List.not_mem_nil, false_iff, not_and]
      intro h3 hinf
      have hle := List.IsInfix.length_le hinf
      rw [h3] at hle
      simp at hle
    | b :: c :: s₂, ih =>
      rw [show textTrigrams (a :: b :: c :: s₂) =
            setInsert [a, b, c] (textTrigrams (b :: c :: s₂)) from rfl,
          mem_setInsert, ih]
      constructor
      · rintro (rfl | ⟨h3, hinf⟩)
        · exact ⟨rfl, [], s₂, rfl⟩
        · exact ⟨h3, infix_cons_of a hinf⟩
      · rintro ⟨h3, u, v, huv⟩
        obtain ⟨t₀, t₁, t₂, rfl⟩ : ∃ x y z, t = [x, y, z] := by
          match t, h3 with
          | [x, y, z], _ => exact ⟨x, y, z, rfl⟩
        cases u with
        | nil =>
          simp only [List.nil_append, List.cons_append, List.cons.injEq] at huv
          obtain ⟨rfl, rfl, rfl, -⟩ := huv
          exact Or.inl rfl
        | cons x u =>
          simp only [List.cons_append, List.cons.injEq] at huv
          exact Or.inr ⟨rfl, u, v, huv.2⟩

structure Searcher where
  docs : List (Nat × List Char)
  inv : List Char → List Nat

/-- A fresh `TrigramRegexSearcher`: no documents, every posting set empty. -/
def emptySearcher : Searcher := ⟨[], fun _ => []⟩

/-- The method `add_document`: store the text under the id and add the id to
the posting set of every distinct trigram of the text. -/
def addDocument (S : Searcher) (id : Nat) (text : List Char) : Searcher where
  docs := dictSet S.docs id text
  inv := fun t => if t ∈ textTrigrams text then setInsert id (S.inv t) else S.inv t

/-- The index mutation of the watcher's `on_deleted`: delete the document
entry and discard the id from every posting set. -/
def removeDocument (S : Searcher) (id : Nat) : Searcher where
  docs := S.docs.filter (fun kv => kv.1 ≠ id)
  inv := fun t => (S.inv t).filter (fun d => d ≠ id)

/-- The watcher's `_index_file` update path for a path already indexed:
discard the id from the posting sets of the old content's trigrams, then
`add_document` the new content under the same id. -/
def replaceDocument (S : Searcher) (id : Nat) (text : List Char) : Searcher :=
  addDocument
    { docs := S.docs,
      inv := fun t =>
        if t ∈ textTrigrams ((dictGet S.docs id).getD []) then
          (S.inv t).filter (fun d => d ≠ id)
        else S.inv t }
    id text

/-- The loop of `search` that intersects the posting lists of the required
trigrams: the first list is copied, the rest intersected in place. -/
def intersectAll (tgs : List (List Char)) (inv : List Char → List Nat) : List Nat :=
  match tgs with
  | [] => []
  | tg :: rest => rest.foldl (fun acc t => setInter acc (inv t)) (inv tg)

/-- The method `search`: pre-filter candidates by intersecting the posting
lists of the pattern's required trigrams (every stored document when there are
none, an immediate empty result when the intersection is empty), then keep the
candidates whose stored content the compiled regex matches. The compiled
matcher `re.compile(pattern).search` is the parameter `m`. -/
def search (S : Searcher) (p : List Node) (m : List Char → Bool) : List Nat :=
  if requiredTrigrams p = [] then
    (S.docs.map Prod.fst).filter (fun id => m ((dictGet S.docs id).getD []))
  else
    if intersectAll (requiredTrigrams p) S.inv = [] then []
    else (intersectAll (requiredTrigrams p) S.inv).filter
      (fun id => m ((dictGet S.docs id).getD []))

/-- The index/content agreement invariant: an id is in a trigram's posting
set exactly when the trigram occurs in that document's stored content. -/
def Agrees (S : Searcher) : Prop :=
  ∀ t id, id ∈ S.inv t ↔ ∃ c, dictGet S.docs id = some c ∧ t ∈ textTrigrams c

/-- Index states reachable from a fresh searcher by additions of fresh ids,
removals, and in-place replacements. -/
inductive Reachable : Searcher → Prop where
  | empty : Reachable emptySearcher
  | add {S : Searcher} {id : Nat} {c : List Char} :
      Reachable S → dictGet S.docs id = none → Reachable (addDocument S id c)
  | remove {S : Searcher} {id : Nat} : Reachable S → Reachable (removeDocument S id)
  | replace {S : Searcher} {id : Nat} {c : List Char} :
      Reachable S → Reachable (replaceDocument S id c)

theorem dictGet_filter_ne {β : Type} (d : List (Nat × β)) (id k : Nat) :
    dictGet (d.filter (fun kv => kv.1 ≠ id)) k =
      if k = id then none else dictGet d k := by
  induction d with
  | nil => simp [dictGet]
  | cons kv rest ih =>
    rw [List.filter_cons]
    split
    · next hcond =>
      have h1 : kv.1 ≠ id := by simpa using hcond
      by_cases h2 : kv.1 = k
      · have h3 : ¬ (k = id) := by rw [← h2]; exact h1
        simp [dictGet, h2, h3]
      · simp only [dictGet, h2, if_false]
        rw [ih]
    · next hcond =>
      have h1 : kv.1 = id := by simpa using hcond
      rw [ih]
      by_cases h2 : k = id
      · simp [h2]
      · have h3 : ¬ (kv.1 = k) := by rw [h1]; exact fun h => h2 h.symm
        simp [dictGet, h2, h3]

theorem agrees_empty : Agrees emptySearcher := by
  intro t id
  simp [emptySearcher, dictGet]

theorem agrees_add {S : Searcher} {id : Nat} {c : List Char}
    (hag : Agrees S) (hfresh : dictGet S.docs id = none) :
    Agrees (addDocument S id c) := by
  intro t d
  show d ∈ (if t ∈ textTrigrams c then setInsert id (S.inv t) else S.inv t) ↔
    ∃ c₂, dictGet (dictSet S.docs id c) d = some c₂ ∧ t ∈ textTrigrams c₂
  by_cases hd : d = id
  · subst hd
    rw [dictGet_dictSet_self]
    by_cases htc : t ∈ textTrigrams c
    · rw [if_pos htc]
      constructor
      · intro _; exact ⟨c, rfl, htc⟩
      · intro _; exact mem_setInsert.mpr (Or.inl rfl)
    · rw [if_neg htc]
      constructor
      · intro hmem
        obtain ⟨c₂, hc₂, -⟩ := (hag t d).mp hmem
        rw [hfresh] at hc₂
        exact absurd hc₂ (by simp)
      · rintro ⟨c₂, hc₂, ht₂⟩
        obtain rfl : c = c₂ := by injection hc₂
        exact absurd ht₂ htc
  · have hget : dictGet (dictSet S.docs id c) d = dictGet S.docs d :=
      dictGet_dictSet_ne _ _ _ _ hd
    rw [hget]
    have hbase := hag t d
    by_cases htc : t ∈ textTrigrams c
    · rw [if_pos htc, mem_setInsert]
      constructor
      · rintro (rfl | hmem)
        · exact absurd rfl hd
        · exact hbase.mp hmem
      · intro h; exact Or.inr (hbase.mpr h)
    · rw [if_neg htc]; exact hbase

theorem agrees_remove {S : Searcher} {id : Nat} (hag : Agrees S) :
    Agrees (removeDocument S id) := by
  intro t d
  show d ∈ (S.inv t).filter (fun x => x ≠ id) ↔
    ∃ c, dictGet (S.docs.filter (fun kv => kv.1 ≠ id)) d = some c ∧ t ∈ textTrigrams c
  rw [List.mem_filter, dictGet_filter_ne]
  by_cases hd : d = id
  · simp [hd]
  · simp only [hd, if_false, decide_not]
    rw [hag t d]
    simp [hd]

theorem agrees_replace {S : Searcher} {id : Nat} {c : List Char}
    (hag : Agrees S) : Agrees (replaceDocument S id c) := by
  intro t d
  show d ∈ (if t ∈ textTrigrams c then
      setInsert id (if t ∈ textTrigrams ((dictGet S.docs id).getD []) then
        (S.inv t).filter (fun x => x ≠ id) else S.inv t)
      else (if t ∈ textTrigrams ((dictGet S.docs id).getD []) then
        (S.inv t).filter (fun x => x ≠ id) else S.inv t)) ↔
    ∃ c₂, dictGet (dictSet S.docs id c) d = some c₂ ∧ t ∈ textTrigrams c₂
  by_cases hd : d = id
  · subst hd
    rw [dictGet_dictSet_self]
    by_cases htc : t ∈ textTrigrams c
    · rw [if_pos htc]
      constructor
      · intro _; exact ⟨c, rfl, htc⟩
      · intro _; exact mem_setInsert.mpr (Or.inl rfl)
    · rw [if_neg htc]
      constructor
      · intro hmem
        by_cases hold : t ∈ textTrigrams ((dictGet S.docs d).getD [])
        · rw [if_pos hold, List.mem_filter] at hmem
          simp at hmem
        · rw [if_neg hold] at hmem
          obtain ⟨c₂, hc₂, ht₂⟩ := (hag t d).mp hmem
          rw [hc₂] at hold
          exact absurd ht₂ hold
      · rintro ⟨c₂, hc₂, ht₂⟩
        obtain rfl : c = c₂ := by injection hc₂
        exact absurd ht₂ htc
  · rw [dictGet_dictSet_ne _ _ _ _ hd]
    have hmain : d ∈ (if t ∈ textTrigrams ((dictGet S.docs id).getD []) then
        (S.inv t).filter (fun x => x ≠ id) else S.inv t) ↔ d ∈ S.inv t := by
      split
      · rw [List.mem_filter]
        simp [hd]
      · exact Iff.rfl
    by_cases htc : t ∈ textTrigrams c
    · rw [if_pos htc, mem_setInsert]
      constructor
      · rintro (rfl | hmem)
        · exact absurd rfl hd
        · exact (hag t d).mp (hmain.mp hmem)
      · intro h; exact Or.inr (hmain.mpr ((hag t d).mpr h))
    · rw [if_neg htc, hmain]
      exact hag t d

theorem reachable_agrees {S : Searcher} (h : Reachable S) : Agrees S := by
  induction h with
  | empty => exact agrees_empty
  | add _ hfresh ih => exact agrees_add ih hfresh
  | remove _ ih => exact agrees_remove ih
  | replace _ ih => exact agrees_replace ih

/-- C4: after any sequence of additions with fresh ids, removals, and
in-place replacements, an id is in a trigram's posting set exactly when the
trigram is a substring of that document's stored content. -/
theorem index_content_agreement (S : Searcher) (h : Reachable S) :
    ∀ t : List Char, t.length = 3 →
      ∀ id : Nat, (id ∈ S.inv t ↔ ∃ c, dictGet S.docs id = some c ∧ t <:+: c) := by
  intro t h3 id
  rw [reachable_agrees h t id]
  constructor
  · rintro ⟨c, hc, htc⟩
    exact ⟨c, hc, (mem_textTrigrams.mp htc).2⟩
  · rintro ⟨c, hc, hinf⟩
    exact ⟨c, hc, mem_textTrigrams.mpr ⟨h3, hinf⟩⟩

/-- Witness for C4: after adding document 1 with content `abc` to a fresh
index, id 1 sits in the posting set of the trigram `abc`. -/
theorem index_content_agreement_witness :
    1 ∈ (addDocument emptySearcher 1 ['a', 'b', 'c']).inv ['a', 'b', 'c'] :=
  (index_content_agreement _ (Reachable.add Reachable.empty rfl)
      ['a', 'b', 'c'] (by decide) 1).mpr
    ⟨['a', 'b', 'c'], by decide, by decide⟩

theorem mem_map_fst_iff {β : Type} {d : List (Nat × β)} {id : Nat} :
    id ∈ d.map Prod.fst ↔ ∃ c, dictGet d id = some c := by
  induction d with
  | nil => simp [dictGet]
  | cons kv rest ih =>
    simp only [List.map_cons, List.mem_cons, dictGet, ih]
    by_cases h : kv.1 = id
    · simp [h, eq_comm]
    · have : ¬ (id = kv.1) := fun hh => h hh.symm
      simp [h, this]

theorem mem_foldl_inter_inv {d : Nat} {tgs : List (List Char)}
    {inv : List Char → List Nat} {acc : List Nat} :
    d ∈ tgs.foldl (fun acc t => setInter acc (inv t)) acc ↔
      d ∈ acc ∧ ∀ tg ∈ tgs, d ∈ inv tg := by
  induction tgs generalizing acc with
  | nil => simp
  | cons tg tgs ih =>
    simp only [List.foldl_cons, ih, mem_setInter, List.mem_cons]
    constructor
    · rintro ⟨⟨h₁, h₂⟩, h₃⟩
      refine ⟨h₁, ?_⟩
      rintro x (rfl | hx); exact h₂; exact h₃ x hx
    · rintro ⟨h₁, h₂⟩
      exact ⟨⟨h₁, h₂ tg (Or.inl rfl)⟩, fun x hx => h₂ x (Or.inr hx)⟩

theorem mem_intersectAll {d : Nat} {tg : List Char} {rest : List (List Char)}
    {inv : List Char → List Nat} :
    d ∈ intersectAll (tg :: rest) inv ↔ ∀ t ∈ tg :: rest, d ∈ inv t := by
  simp only [intersectAll, mem_foldl_inter_inv, List.mem_cons]
  constructor
  · rintro ⟨h₁, h₂⟩
    rintro x (rfl | hx); exact h₁; exact h₂ x hx
  · intro h
    exact ⟨h tg (Or.inl rfl), fun x hx => h x (Or.inr hx)⟩

/-- C2: on an index state satisfying the index/content agreement invariant,
and with a matcher that decides "content contains a match of the pattern" on
every stored document, `search` returns exactly the stored documents whose
content contains a match: complete and sound. -/
theorem search_exact (S : Searcher) (p : List Node) (m : List Char → Bool)
    (hag : Agrees S)
    (hm : ∀ id c, dictGet S.docs id = some c → (m c = true ↔ ContainsMatch p c)) :
    ∀ id, id ∈ search S p m ↔ ∃ c, dictGet S.docs id = some c ∧ ContainsMatch p c := by
  intro id
  unfold search
  cases hreq : requiredTrigrams p with
  | nil =>
    rw [if_pos rfl, List.mem_filter, mem_map_fst_iff]
    constructor
    · rintro ⟨⟨c, hc⟩, hmB⟩
      rw [hc] at hmB
      exact ⟨c, hc, (hm id c hc).mp hmB⟩
    · rintro ⟨c, hc, hcm⟩
      refine ⟨⟨c, hc⟩, ?_⟩
      rw [hc]
      exact (hm id c hc).mpr hcm
  | cons tg rest =>
    rw [if_neg (by simp)]
    constructor
    · intro hsearch
      split at hsearch
      · simp at hsearch
      · rw [List.mem_filter] at hsearch
        obtain ⟨hcand, hmB⟩ := hsearch
        have hinv : id ∈ S.inv tg :=
          mem_intersectAll.mp hcand tg (List.mem_cons_self _ _)
        obtain ⟨c, hc, -⟩ := (hag tg id).mp hinv
        rw [hc] at hmB
        exact ⟨c, hc, (hm id c hc).mp hmB⟩
    · rintro ⟨c, hc, hcm⟩
      have hall : ∀ t ∈ tg :: rest, id ∈ S.inv t := by
        intro t ht
        have htp : t ∈ requiredTrigrams p := by rw [hreq]; exact ht
        have h3 : t.length = 3 := mandatory_length htp
        obtain ⟨s₁, s₂, s₃, hceq, hmatch⟩ := hcm
        have hinf : t <:+: c := by
          rw [hceq]
          exact infix_of_left s₃ (infix_of_right s₁ (mandatory_sound hmatch t htp))
        exact (hag t id).mpr ⟨c, hc, mem_textTrigrams.mpr ⟨h3, hinf⟩⟩
      have hcand : id ∈ intersectAll (tg :: rest) S.inv := mem_intersectAll.mpr hall
      split
      · next hempty => rw [hempty] at hcand; simp at hcand
      · rw [List.mem_filter]
        refine ⟨hcand, ?_⟩
        rw [hc]
        exact (hm id c hc).mpr hcm

/-- Witness for C2: a one-document index whose document `xabc` contains a
match of the literal pattern `abc`, with the matcher the substring test. -/
theorem search_exact_witness :
    7 ∈ search (addDocument emptySearcher 7 ['x', 'a', 'b', 'c'])
        (lits ['a', 'b', 'c'])
        (fun c => decide (['a', 'b', 'c'] <:+: c)) := by
  have hag : Agrees (addDocument emptySearcher 7 ['x', 'a', 'b', 'c']) :=
    agrees_add agrees_empty rfl
  have hm : ∀ id c,
      dictGet (addDocument emptySearcher 7 ['x', 'a', 'b', 'c']).docs id = some c →
      ((fun c => decide (['a', 'b', 'c'] <:+: c)) c = true ↔
        ContainsMatch (lits ['a', 'b', 'c']) c) := by
    intro id c h
    have hc : c = ['x', 'a', 'b', 'c'] := by
      revert h
      show dictGet (dictSet [] 7 ['x', 'a', 'b', 'c']) id = some c →
        c = ['x', 'a', 'b', 'c']
      simp only [dictSet, dictGet, List.any_nil, List.nil_append]
      split
      · intro h; injection h with h; exact h.symm
      · intro h; exact absurd h (by simp [dictGet])
    subst hc
    refine iff_of_true (by decide) ?_
    exact ⟨['x'], ['a', 'b', 'c'], [], rfl, matchSeq_lits _⟩
  exact (search_exact _ _ _ hag hm 7).mpr
    ⟨['x', 'a', 'b', 'c'], by decide, ⟨['x'], ['a', 'b', 'c'], [], rfl, matchSeq_lits _⟩⟩

/-- C5: an alternation node in a required context contributes exactly the
intersection of its branches' required-trigram sets (a trigram only when every
branch guarantees it, and only when there is a branch); in particular
`required_trigrams` of the pattern `(hello|yellow)` is the set of `ell` and
`llo`. -/
theorem alternation_intersection :
    (∀ (bs : List (List Node)) (rest : List Node) (t : List Char),
      t ∈ mandatorySeq true (Node.branch bs :: rest) ↔
        ((bs ≠ [] ∧ ∀ b ∈ bs, t ∈ mandatorySeq true b) ∨ t ∈ mandatorySeq true rest))
    ∧ (requiredTrigrams [Node.subpattern [Node.branch
        [lits ['h', 'e', 'l', 'l', 'o'], lits ['y', 'e', 'l', 'l', 'o', 'w']]]]).toFinset =
      {['e', 'l', 'l'], ['l', 'l', 'o']} := by
  constructor
  · intro bs rest t
    rw [mandatorySeq_branch, mem_setUnion, mem_interSets]
    have hbt : branchTrigrams bs ≠ [] ↔ bs ≠ [] := by
      cases bs <;> simp [branchTrigrams]
    constructor
    · rintro (⟨hne, hall⟩ | hr)
      · refine Or.inl ⟨hbt.mp hne, ?_⟩
        intro b hb
        exact hall _ (mem_branchTrigrams.mpr ⟨b, hb, rfl⟩)
      · exact Or.inr hr
    · rintro (⟨hne, hall⟩ | hr)
      · refine Or.inl ⟨hbt.mpr hne, ?_⟩
        intro x hx
        obtain ⟨b, hb, rfl⟩ := mem_branchTrigrams.mp hx
        exact hall b hb
      · exact Or.inr hr
  · simp only [requiredTrigrams, lits, List.map_cons, List.map_nil]
    simp [mandatorySeq, branchTrigrams, headWindow, interSets]
    decide

/-- C6: a repetition node contributes its body's required trigrams exactly
when its minimum count is at least 1; in particular `required_trigrams` of
`(abc){0,3}` is empty and of `(abc){1,3}` is the set holding `abc`. -/
theorem repetition_required :
    (∀ (m mx : Nat) (body rest : List Node) (t : List Char),
      t ∈ mandatorySeq true (Node.maxRepeat m mx body :: rest) ↔
        ((1 ≤ m ∧ t ∈ mandatorySeq true body) ∨ t ∈ mandatorySeq true rest))
    ∧ requiredTrigrams [Node.maxRepeat 0 3 [Node.subpattern (lits ['a', 'b', 'c'])]] = []
    ∧ (requiredTrigrams
        [Node.maxRepeat 1 3 [Node.subpattern (lits ['a', 'b', 'c'])]]).toFinset =
      {['a', 'b', 'c']} := by
  refine ⟨?_, ?_, ?_⟩
  · intro m mx body rest t
    rw [mandatorySeq_rep, mem_setUnion]
    cases m with
    | zero =>
      rw [show (decide (0 < 0) : Bool) = false from rfl, mandatorySeq_false]
      simp
    | succ k =>
      rw [show (decide (0 < k + 1) : Bool) = true by simp]
      have h1 : 1 ≤ k + 1 := Nat.succ_le_succ (Nat.zero_le k)
      simp [h1]
  · simp only [requiredTrigrams, lits, List.map_cons, List.map_nil]
    simp [mandatorySeq, branchTrigrams, headWindow, interSets, setUnion, setInsert]
  · simp only [requiredTrigrams, lits, List.map_cons, List.map_nil]
    simp [mandatorySeq, branchTrigrams, headWindow, interSets]
    decide

/-- C8: adding a document under an id the index does not hold and then
removing it through the watcher's delete handling restores the index exactly:
the document store is unchanged and every posting set is unchanged (the
posting map is total with default empty, so an absent posting set and an
empty one are the same object). -/
theorem add_remove_roundtrip (S : Searcher) (id : Nat) (c : List Char)
    (hag : Agrees S) (hfresh : dictGet S.docs id = none) :
    (removeDocument (addDocument S id c) id).docs = S.docs ∧
    ∀ t, (removeDocument (addDocument S id c) id).inv t = S.inv t := by
  have hnokey : ∀ kv ∈ S.docs, kv.1 ≠ id := dictGet_eq_none_iff.mp hfresh
  have hany : (S.docs.any (fun kv => kv.1 = id)) = false := by
    rw [List.any_eq_false]
    intro kv hkv
    simpa using hnokey kv hkv
  constructor
  · show (dictSet S.docs id c).filter (fun kv => kv.1 ≠ id) = S.docs
    rw [show dictSet S.docs id c = S.docs ++ [(id, c)] from by
      unfold dictSet; rw [hany]; simp]
    rw [List.filter_append]
    have h1 : S.docs.filter (fun kv => kv.1 ≠ id) = S.docs := by
      rw [List.filter_eq_self]
      intro kv hkv
      simpa using hnokey kv hkv
    have h2 : ([(id, c)] : List (Nat × List Char)).filter (fun kv => kv.1 ≠ id) = [] := by
      simp
    rw [h1, h2, List.append_nil]
  · intro t
    show ((if t ∈ textTrigrams c then setInsert id (S.inv t) else S.inv t).filter
      (fun d => d ≠ id)) = S.inv t
    have hid_not : id ∉ S.inv t := by
      intro hmem
      obtain ⟨c₂, hc₂, -⟩ := (hag t id).mp hmem
      rw [hfresh] at hc₂
      exact absurd hc₂ (by simp)
    have hfilter_self : (S.inv t).filter (fun d => d ≠ id) = S.inv t := by
      rw [List.filter_eq_self]
      intro d hd
      have : d ≠ id := fun h => hid_not (h ▸ hd)
      simpa using this
    split
    · rw [show setInsert id (S.inv t) = id :: S.inv t from by
        unfold setInsert; rw [if_neg hid_not]]
      rw [List.filter_cons]
      simp [hfilter_self]
      exact fun a ha h => hid_not (h ▸ ha)
    · exact hfilter_self

/-- Witness for C8: add document 2 to a one-document index, remove it through
the watcher's delete handling, and both the document store and the posting
set of `bar` are back to their prior values. -/
theorem add_remove_roundtrip_witness :
    (removeDocument (addDocument (addDocument emptySearcher 1 ['f', 'o', 'o'])
        2 ['b', 'a', 'r']) 2).docs
      = (addDocument emptySearcher 1 ['f', 'o', 'o']).docs ∧
    (removeDocument (addDocument (addDocument emptySearcher 1 ['f', 'o', 'o'])
        2 ['b', 'a', 'r']) 2).inv ['b', 'a', 'r']
      = (addDocument emptySearcher 1 ['f', 'o', 'o']).inv ['b', 'a', 'r'] := by
  have h := add_remove_roundtrip (addDocument emptySearcher 1 ['f', 'o', 'o'])
    2 ['b', 'a', 'r'] (agrees_add agrees_empty rfl) (by decide)
  exact ⟨h.1, h.2 ['b', 'a', 'r']⟩

/-- C9: search is a deterministic function of the index state and the query:
equal document stores, pointwise-equal posting maps, equal patterns and
pointwise-equal matchers give equal result lists. -/
theorem search_deterministic (S₁ S₂ : Searcher) (p₁ p₂ : List Node)
    (m₁ m₂ : List Char → Bool)
    (hdocs : S₁.docs = S₂.docs) (hinv : ∀ t, S₁.inv t = S₂.inv t)
    (hp : p₁ = p₂) (hm : ∀ c, m₁ c = m₂ c) :
    search S₁ p₁ m₁ = search S₂ p₂ m₂ := by
  obtain ⟨d₁, i₁⟩ := S₁
  obtain ⟨d₂, i₂⟩ := S₂
  have hi : i₁ = i₂ := funext hinv
  have hmm : m₁ = m₂ := funext hm
  simp only at hdocs
  subst hdocs
  subst hi
  subst hmm
  subst hp
  rfl

/-- Witness for C9: the same index state queried with two syntactically
different but pointwise-equal matchers gives the same result list. -/
theorem search_deterministic_witness :
    search ⟨[(1, ['a', 'b', 'c'])], fun t => if t = ['a', 'b', 'c'] then [1] else []⟩
        (lits ['a', 'b', 'c']) (fun _ => true)
      = search ⟨[(1, ['a', 'b', 'c'])], fun t => if t = ['a', 'b', 'c'] then [1] else []⟩
        (lits ['a', 'b', 'c']) (fun c => decide (c = c)) :=
  search_deterministic _ _ _ _ _ _ rfl (fun _ => rfl) rfl (fun c => by simp)

/-- C10: add_document overwrites the stored content of the given id, leaves
every other document's stored content unchanged, never removes an id from any
posting set, and only ever inserts the given id, into posting sets of
trigrams of the new content. -/
theorem addDocument_frame (S : Searcher) (id : Nat) (c : List Char) :
    dictGet (addDocument S id c).docs id = some c ∧
    (∀ id₂, id₂ ≠ id → dictGet (addDocument S id c).docs id₂ = dictGet S.docs id₂) ∧
    (∀ t d, d ∈ S.inv t → d ∈ (addDocument S id c).inv t) ∧
    (∀ t d, d ∈ (addDocument S id c).inv t →
      d ∈ S.inv t ∨ (d = id ∧ t ∈ textTrigrams c)) := by
  refine ⟨dictGet_dictSet_self _ _ _, ?_, ?_, ?_⟩
  · intro id₂ h
    exact dictGet_dictSet_ne _ _ _ _ h
  · intro t d hd
    show d ∈ (if t ∈ textTrigrams c then setInsert id (S.inv t) else S.inv t)
    split
    · exact mem_setInsert.mpr (Or.inr hd)
    · exact hd
  · intro t d
    show d ∈ (if t ∈ textTrigrams c then setInsert id (S.inv t) else S.inv t) →
      d ∈ S.inv t ∨ (d = id ∧ t ∈ textTrigrams c)
    split
    · next htc =>
      intro hd
      rcases mem_setInsert.mp hd with rfl | hd
      · exact Or.inr ⟨rfl, htc⟩
      · exact Or.inl hd
    · exact fun hd => Or.inl hd

/-!
## The ignore predicate

The function `should_ignore` of `utils.py`. The relative path
(`os.path.relpath(path, base_path)`) is given by its components, the basename
of the original path as a separate argument, and `fnmatch.fnmatch` (a
standard-library glob matcher) as an abstract parameter.
-/

/-- True when the string begins with the given character (`startswith`). -/
def startsWithChar (ch : Char) : List Char → Bool
  | c :: _ => c = ch
  | [] => false

/-- The relative path as the pattern loop sees it: components joined by the
path separator. -/
def joinPath (parts : List (List Char)) : List Char :=
  (List.intersperse ['/'] parts).flatten

/-- The pattern loop of `should_ignore`: negation patterns unignore on match,
directory patterns match with a trailing separator appended or as a path
prefix, other patterns glob-match, and patterns containing a separator but no
wildcard match as path prefixes; after the loop the path is not ignored. -/
def matchPatterns (fnmatch : List Char → List Char → Bool) (relPath : List Char) :
    List (List Char) → Bool
  | [] => false
  | pat :: rest =>
    if startsWithChar '!' pat then
      if fnmatch relPath (pat.drop 1) then false
      else matchPatterns fnmatch relPath rest
    else if pat.getLast? = some '/' then
      if fnmatch (relPath ++ ['/']) pat || pat.isPrefixOf relPath then true
      else matchPatterns fnmatch relPath rest
    else if fnmatch relPath pat then true
    else if pat.contains '/' && !pat.contains '*' && pat.isPrefixOf relPath then true
    else matchPatterns fnmatch relPath rest

/-- The function `should_ignore`: a hidden basename or any hidden component
of the relative path is ignored unconditionally, before the pattern loop
runs. -/
def shouldIgnore (fnmatch : List Char → List Char → Bool)
    (relParts : List (List Char)) (basename : List Char)
    (patterns : List (List Char)) : Bool :=
  if startsWithChar '.' basename then true
  else if relParts.any (startsWithChar '.') then true
  else matchPatterns fnmatch (joinPath relParts) patterns

/-- C7: whenever any component of the path relative to the base begins with a
dot, `should_ignore` returns true, whatever the glob matcher, the basename
and the pattern list (negation patterns included) are. -/
theorem hidden_component_ignored (fnmatch : List Char → List Char → Bool)
    (relParts : List (List Char)) (basename : List Char)
    (patterns : List (List Char))
    (h : ∃ part ∈ relParts, startsWithChar '.' part = true) :
    shouldIgnore fnmatch relParts basename patterns = true := by
  unfold shouldIgnore
  split
  · rfl
  · rw [if_pos]
    rw [List.any_eq_true]
    obtain ⟨part, hp, hd⟩ := h
    exact ⟨part, hp, hd⟩

/-- Witness for C7: a path inside a dot-directory is ignored even when the
glob matcher matches everything and the only pattern is a negation pattern. -/
theorem hidden_component_ignored_witness :
    shouldIgnore (fun _ _ => true) [['.', 'g', 'i', 't'], ['x']] ['x']
      [['!', '*']] = true :=
  hidden_component_ignored _ _ _ _ ⟨['.', 'g', 'i', 't'], by decide, by decide⟩

/-!
## The changeset applicator

The function `apply_all` of `utils.py` over a modelled filesystem (a mapping
from path to text content). The block extraction and the hunk extraction
(both `re.findall`) are abstracted: the fenced blocks are given as
(path, body) pairs and the SEARCH/REPLACE hunk parser as the parameter
`parseHunks`. Directory creation is a no-op in the model and writes always
succeed.
-/

/-- Python `in` on strings: the pattern occurs as a contiguous substring. -/
def isSubstring (pat : List Char) : List Char → Bool
  | [] => pat.isEmpty
  | ch :: rest => pat.isPrefixOf (ch :: rest) || isSubstring pat rest

/-- Helper of `replaceAll` for an empty search string: the replacement goes
after every character (`'ab'.replace('', 'x') = 'xaxbx'` puts it before, after
and between; the leading copy is added by `replaceAll` itself). -/
def interleave (rep : List Char) : List Char → List Char
  | [] => []
  | ch :: rest => ch :: (rep ++ interleave rep rest)

/-- Python `str.replace` for a search string known nonempty: replace every
left-to-right non-overlapping occurrence. -/
def replaceGo (p₀ : Char) (pr rep : List Char) : List Char → List Char
  | [] => []
  | ch :: rest =>
    if (p₀ :: pr).isPrefixOf (ch :: rest) then
      rep ++ replaceGo p₀ pr rep (rest.drop pr.length)
    else ch :: replaceGo p₀ pr rep rest
termination_by s => s.length
decreasing_by
  · simp only [List.length_cons, List.length_drop]
    omega
  · simp only [List.length_cons]
    omega

/-- Python `str.replace`: replace every occurrence of the search string. -/
def replaceAll (pat rep s : List Char) : List Char :=
  match pat with
  | [] => rep ++ interleave rep s
  | p₀ :: pr => replaceGo p₀ pr rep s

/-- The hunk loop of `apply_all` for one file: each SEARCH text must occur in
the current content, which is then rewritten by replacing it throughout. -/
def applyHunks (content : List Char) :
    List (List Char × List Char) → Option (List Char)
  | [] => some content
  | (s, r) :: rest =>
    if isSubstring s content then applyHunks (replaceAll s r content) rest
    else none

/-- Whether a path exists on the modelled filesystem. -/
def fsExists (fs : List (List Char × List Char)) (p : List Char) : Bool :=
  fs.any (fun kv => kv.1 = p)

/-- The accumulation `files_to_modify[path].extend(hunks)`, creating a missing
entry first. -/
def extendHunks (m : List (List Char × List (List Char × List Char)))
    (p : List Char) (hs : List (List Char × List Char)) :
    List (List Char × List (List Char × List Char)) :=
  if m.any (fun kv => kv.1 = p) then
    m.map (fun kv => if kv.1 = p then (kv.1, kv.2 ++ hs) else kv)
  else m ++ [(p, hs)]

/-- The first pass of `apply_all`: classify each block as a creation (no
hunks, file absent) or a modification (hunks, file present); a missing path,
hunks for an absent file, or a plain body for a present file fail the whole
changeset. Returns the files to create and the files to modify. -/
def classify (parseHunks : List Char → List (List Char × List Char))
    (fs : List (List Char × List Char)) :
    List (List Char × List Char) →
    List (List Char × List Char) →
    List (List Char × List (List Char × List Char)) →
    Option (List (List Char × List Char) ×
      List (List Char × List (List Char × List Char)))
  | [], creates, modifies => some (creates, modifies)
  | (path, content) :: rest, creates, modifies =>
    if path = [] then none
    else if parseHunks content = [] then
      if fsExists fs path then none
      else classify parseHunks fs rest (dictSet creates path content) modifies
    else
      if fsExists fs path then
        classify parseHunks fs rest creates
          (extendHunks modifies path (parseHunks content))
      else none

/-- The third pass of `apply_all`: read each file to modify from the
filesystem as it stands after the creations were written, apply its hunks in
order, and collect the new contents. -/
def computeModified (fs₁ : List (List Char × List Char)) :
    List (List Char × List (List Char × List Char)) →
    List (List Char × List Char) →
    Option (List (List Char × List Char))
  | [], acc => some acc
  | (p, hs) :: rest, acc =>
    match dictGet fs₁ p with
    | none => none
    | some orig =>
      match applyHunks orig hs with
      | none => none
      | some newC => computeModified fs₁ rest (dictSet acc p newC)

/-- The function `apply_all`: classify blocks, write every creation, then
validate and compute every modification, and finally write the modifications.
The pair returned is the final filesystem and the return code (0 success,
1 failure). The creations are written before the modification hunks are
validated, exactly as the source orders its phases. -/
def applyAll (parseHunks : List Char → List (List Char × List Char))
    (blocks : List (List Char × List Char))
    (fs : List (List Char × List Char)) :
    List (List Char × List Char) × Nat :=
  if blocks = [] then (fs, 1)
  else
    match classify parseHunks fs blocks [] [] with
    | none => (fs, 1)
    | some (creates, modifies) =>
      let fs₁ := creates.foldl (fun f pc => dictSet f pc.1 pc.2) fs
      match computeModified fs₁ modifies [] with
      | none => (fs₁, 1)
      | some mods => (mods.foldl (fun f pc => dictSet f pc.1 pc.2) fs₁, 0)

/-- C3 fails on the code: a changeset that creates one file and modifies
another returns failure when the modification's SEARCH text is absent, yet
the created file is left on the filesystem, so the state after a failed
`apply_all` is distinguishable from the pre-call state. -/
theorem applyAll_creates_despite_failure :
    (applyAll (fun c => if c = ['H'] then [(['m', 'q'], ['X'])] else [])
        [(['n'], ['N', 'E', 'W']), (['o'], ['H'])]
        [(['o'], ['c', 'o', 'n', 't'])]).2 = 1 ∧
    dictGet (applyAll (fun c => if c = ['H'] then [(['m', 'q'], ['X'])] else [])
        [(['n'], ['N', 'E', 'W']), (['o'], ['H'])]
        [(['o'], ['c', 'o', 'n', 't'])]).1 ['n'] = some ['N', 'E', 'W'] ∧
    dictGet [(['o'], ['c', 'o', 'n', 't'])] ['n'] = none := by
  decide

/-!
## Reconciliation with the source's run gathering

The source gathers each maximal contiguous run of LITERAL tokens into a
string and adds every length-3 window of it (`literal[k:k+3]` for
`k in range(len(literal) - 2)`). The definitions below spell that view out,
and `mandatory_lit_run` proves the extractor above computes exactly it.
-/

/-- The maximal leading literal run, as the source's `run` string. -/
def runOf : List Node → List Char
  | Node.literal c :: rest => c :: runOf rest
  | _ => []

/-- What follows the maximal leading literal run (the source's `i = j`). -/
def afterRun : List Node → List Node
  | Node.literal _ :: rest => afterRun rest
  | l => l

/-- Every length-3 window of a string: the loop
`for k in range(len(literal) - 2): must.add(literal[k:k+3])`. -/
def windows3 : List Char → List (List Char)
  | a :: b :: c :: rest => [a, b, c] :: windows3 (b :: c :: rest)
  | _ => []

/-- At a literal node the extractor contributes exactly the windows of the
maximal literal run starting there, together with the contribution of what
follows the run: the per-position `headWindow` view equals the source's
run-gathering view. -/
theorem mandatory_lit_run : ∀ (rest : List Node) (a : Char) (t : List Char),
    t ∈ mandatorySeq true (Node.literal a :: rest) ↔
      (t ∈ windows3 (a :: runOf rest) ∨ t ∈ mandatorySeq true (afterRun rest)) := by
  intro rest
  induction rest with
  | nil =>
    intro a t
    rw [mandatorySeq_lit, mem_setUnion, mandatorySeq_nil]
    simp [headWindow, runOf, afterRun, windows3, mandatorySeq_nil]
  | cons nd rest ih =>
    intro a t
    cases nd with
    | literal b =>
      rw [mandatorySeq_lit, mem_setUnion,
        show runOf (Node.literal b :: rest) = b :: runOf rest from rfl,
        show afterRun (Node.literal b :: rest) = afterRun rest from rfl,
        ih b t]
      cases rest with
      | nil => simp [headWindow, runOf, windows3]
      | cons nd₂ rest₂ =>
        cases nd₂ with
        | literal c =>
          rw [show headWindow a (Node.literal b :: Node.literal c :: rest₂) =
              [[a, b, c]] from rfl,
            show runOf (Node.literal c :: rest₂) = c :: runOf rest₂ from rfl,
            show windows3 (a :: b :: c :: runOf rest₂) =
              [a, b, c] :: windows3 (b :: c :: runOf rest₂) from rfl]
          simp only [List.mem_singleton, List.mem_cons]
          tauto
        | subpattern body => simp [headWindow, runOf, windows3]
        | branch bs => simp [headWindow, runOf, windows3]
        | maxRepeat m mx body => simp [headWindow, runOf, windows3]
        | other => simp [headWindow, runOf, windows3]
    | subpattern body =>
      rw [mandatorySeq_lit, mem_setUnion]
      simp [headWindow, runOf, afterRun, windows3]
    | branch bs =>
      rw [mandatorySeq_lit, mem_setUnion]
      simp [headWindow, runOf, afterRun, windows3]
    | maxRepeat m mx body =>
      rw [mandatorySeq_lit, mem_setUnion]
      simp [headWindow, runOf, afterRun, windows3]
    | other =>
      rw [mandatorySeq_lit, mem_setUnion]
      simp [headWindow, runOf, afterRun, windows3]
